import Mathlib

/-!
# Verification of the CLAM entropy-scaling search library

A shallow embedding of the core algorithms of the `clam` repository
(cluster trees, range search, k-nearest-neighbour search, the offset/permuted
tree variant, and the compressed dataset), together with proofs and refutations
of the specification's claims about them.

Distance values (`f32`/`f64` in the source) are embedded as exact rationals
`ℚ`; the transcendental `powf` is either kept abstract (as a function
parameter) where only control flow matters, or embedded as `Real.rpow` where
the claim is about its real value.  Partial (panicking) operations return
`Option`, with `none` marking a panic.  Recursive tree walks take an explicit
fuel argument (structural on the fuel) so that all searches are executable and
kernel-reducible; theorems require the fuel to dominate the tree size.
-/

namespace Clam

-- Restore kernel reducibility of the basic `ℚ` operations so that concrete
-- runs of the embedded algorithms can be evaluated by `decide`.
attribute [local semireducible] Rat.mul Rat.inv Rat.add Rat.sub

/-- `f64::EPSILON = 2⁻⁵²`, the machine epsilon used by the `f64` code paths
(`core::f64::EPSILON` in `utils.rs` and `_knn.rs`). -/
def EPS64 : ℚ := 1 / 2 ^ 52

/-- `f32::EPSILON = 2⁻²³`, the machine epsilon of the `f32` distance type
(`U::EPSILON` in the generic cluster code, instantiated at `f32`). -/
def EPS32 : ℚ := 1 / 2 ^ 23

/-- `utils::mean`: the arithmetic mean of a slice, `sum / len`
(`utils.rs` lines 38-40).  On the empty list this is `0 / 0 = 0` in `ℚ`,
matching the embedding's total division. -/
def qmean (xs : List ℚ) : ℚ := xs.sum / (xs.length : ℚ)

/-- Insert into a list sorted ascending by the comparator `le`, placing the
new element before any elements it ties with (the inserted element precedes
the already-inserted ones in the original list).  Together with `stableSort`
this models Rust's stable `sort_by` for the ascending comparators used in
the source. -/
def insortBy (le : α → α → Bool) (x : α) : List α → List α
  | [] => [x]
  | y :: ys => if le x y then x :: y :: ys else y :: insortBy le x ys

/-- A stable ascending sort (insertion sort); the model of `Vec::sort_by` with
an ascending comparator, which in Rust is a stable sort. -/
def stableSort (le : α → α → Bool) : List α → List α
  | [] => []
  | x :: xs => insortBy le x (stableSort le xs)

/-! ## The local fractal dimension (`utils::compute_lfd`) -/

/-- `utils::compute_lfd` (`utils.rs` lines 76-88): if the radius is zero the
LFD is `1`; otherwise count the distances that are at most half the radius;
if the count is positive the LFD is `log₂(len / count)`, else `1`. -/
noncomputable def compute_lfd (radius : ℚ) (distances : List ℚ) : ℝ :=
  if radius = 0 then 1
  else
    let r_2 : ℚ := radius / 2
    let half_count := (distances.filter (fun d => d ≤ r_2)).length
    if 0 < half_count then
      Real.logb 2 ((distances.length : ℝ) / (half_count : ℝ))
    else 1

/-- The number of distances within half the radius, as used by
`compute_lfd`. -/
def halfCount (radius : ℚ) (distances : List ℚ) : ℕ :=
  (distances.filter (fun d => d ≤ radius / 2)).length

/-! ## The repeated-RNN growth factor (`KnnAlgorithm::knn_by_rnn`) -/

/-- The radius growth factor of `knn_by_rnn` (`_knn.rs` line 150):
`(k / num_hits).powf(1 / (lfd + EPSILON))`, where `lfd` is the mean of the
LFD values of the clusters contributing hits. -/
noncomputable def knnFactor (k numHits : ℕ) (lfds : List ℚ) : ℝ :=
  ((k : ℝ) / (numHits : ℝ)) ^ ((1 : ℝ) / ((qmean lfds : ℝ) + (EPS64 : ℝ)))

/-! ## The original crate's cluster tree

The original crate (under `src/abd-clam`) builds a `Tree` of `Cluster`s; a
cluster stores its cardinality, the index of its center, its radius, its LFD,
its member indices, and its child clusters.  Distances to a fixed query are a
function `dq : ℕ → ℚ` from item indices, and item-to-item distances are
`dd : ℕ → ℕ → ℚ`. -/

/-- A node of the original crate's cluster tree (`Cluster`). -/
inductive OCl where
  | node (card : ℕ) (argCenter : ℕ) (radius : ℚ) (lfd : ℚ)
      (indices : List ℕ) (children : List OCl)

namespace OCl

/-- `Cluster::cardinality`. -/
def card : OCl → ℕ
  | node c _ _ _ _ _ => c

/-- `Cluster::arg_center`. -/
def argCenter : OCl → ℕ
  | node _ a _ _ _ _ => a

/-- `Cluster::radius`. -/
def radius : OCl → ℚ
  | node _ _ r _ _ _ => r

/-- `Cluster::lfd`. -/
def lfd : OCl → ℚ
  | node _ _ _ l _ _ => l

/-- `Cluster::indices`. -/
def indices : OCl → List ℕ
  | node _ _ _ _ idxs _ => idxs

/-- `Cluster::children`. -/
def children : OCl → List OCl
  | node _ _ _ _ _ cs => cs

/-- Modelled from the spec: the original crate's `Cluster::is_singleton` is
not under `src/`.  §4.3 requires the distance recorded for the members of a
singleton to make the range-search result exact (P7), which holds precisely
when all members coincide with the center, i.e. for zero-radius clusters;
§4.8 likewise calls an all-duplicates cluster "a single-node tree with
radius 0".  A singleton is therefore a zero-radius cluster. -/
def isSingleton (c : OCl) : Bool := c.radius == 0

/-- Structural induction over a cluster tree, recursing through the child
list. -/
theorem induct (P : OCl → Prop)
    (h : ∀ card ac r l idxs cs, (∀ c ∈ cs, P c) → P (node card ac r l idxs cs)) :
    ∀ t, P t
  | node card ac r l idxs cs => h card ac r l idxs cs fun c hc => induct P h c
termination_by t => sizeOf t
decreasing_by
  have := List.sizeOf_lt_of_mem hc
  simp only [node.sizeOf_spec]
  omega

end OCl

/-- Modelled from the spec: `RnnAlgorithm::tree_search` (§4.3) is not under
`src/`.  Descend from the root, classifying each visited cluster by
`δ = d(q, center)`: *confirmed* when `δ + radius ≤ ρ`, *pruned* when
`δ − radius > ρ`, otherwise a *straddler* — a straddling leaf is collected,
a straddling internal node is replaced by its children.  Returns the pair
(confirmed clusters, straddling leaves), each with its `δ`.  The walk takes
fuel; with fuel at least the tree size the fuel never runs out. -/
def treeSearch (dq : ℕ → ℚ) (ρ : ℚ) : ℕ → OCl → List (OCl × ℚ) × List (OCl × ℚ)
  | 0, _ => ([], [])
  | fuel + 1, .node card ac r l idxs cs =>
    let δ := dq ac
    if δ + r ≤ ρ then ([(.node card ac r l idxs cs, δ)], [])
    else if ρ < δ - r then ([], [])
    else if cs.isEmpty then ([], [(.node card ac r l idxs cs, δ)])
    else
      let results := cs.map (treeSearch dq ρ fuel)
      ((results.map Prod.fst).flatten, (results.map Prod.snd).flatten)

/-- Modelled from the spec (§4.3, result assembly): a confirmed cluster
contributes every member; a singleton reuses `δ`, any other confirmed
cluster gets exact distances. -/
def rnnConfirmedHits (dq : ℕ → ℚ) (cδ : OCl × ℚ) : List (ℕ × ℚ) :=
  if cδ.1.isSingleton then cδ.1.indices.map fun i => (i, cδ.2)
  else cδ.1.indices.map fun i => (i, dq i)

/-- Modelled from the spec (§4.3): a straddling leaf has each member tested
directly against the radius. -/
def rnnLeafHits (dq : ℕ → ℚ) (ρ : ℚ) (cδ : OCl × ℚ) : List (ℕ × ℚ) :=
  (cδ.1.indices.map fun i => (i, dq i)).filter fun p => p.2 ≤ ρ

/-- Modelled from the spec (§4.3): the full range search — classify the tree
with `tree_search`, then merge the confirmed clusters' members with the
individually tested members of the straddling leaves. -/
def rnnSearch (dq : ℕ → ℚ) (ρ : ℚ) (fuel : ℕ) (t : OCl) : List (ℕ × ℚ) :=
  (treeSearch dq ρ fuel t).1.flatMap (rnnConfirmedHits dq) ++
    (treeSearch dq ρ fuel t).2.flatMap (rnnLeafHits dq ρ)

/-- The tree invariants of §3 that a built tree satisfies, relative to the
item-to-item distance `dd`: the center is a member, every member is within
the radius of the center (I2), and the children's members form a partition
of the parent's members (I1, stated as multiset equality). -/
inductive TreeWF (dd : ℕ → ℕ → ℚ) : OCl → Prop
  | node {card ac : ℕ} {r l : ℚ} {idxs : List ℕ} {cs : List OCl} :
      ac ∈ idxs →
      (∀ i ∈ idxs, dd ac i ≤ r) →
      (cs = [] ∨ (cs.flatMap OCl.indices).Perm idxs) →
      (∀ c ∈ cs, TreeWF dd c) →
      TreeWF dd (OCl.node card ac r l idxs cs)

/-! ### List helpers for the range-search proof -/

/-- Flat-mapping over a flattened list of lists flattens the per-list
flat-maps. -/
theorem flatten_flatMap (L : List (List α)) (g : α → List β) :
    L.flatten.flatMap g = (L.map fun l => l.flatMap g).flatten := by
  induction L with
  | nil => rfl
  | cons l L ih => simp [ih]

/-- Concatenating the flattened `f`-parts with the flattened `g`-parts is a
permutation of flattening the per-element concatenations. -/
theorem flatten_append_perm (l : List α) (f g : α → List β) :
    ((l.map f).flatten ++ (l.map g).flatten).Perm
      ((l.map fun x => f x ++ g x).flatten) := by
  induction l with
  | nil => simp
  | cons x xs ih =>
    simp only [List.map_cons, List.flatten_cons]
    have h1 : (f x ++ (xs.map f).flatten ++ (g x ++ (xs.map g).flatten)).Perm
        (f x ++ (g x ++ ((xs.map f).flatten ++ (xs.map g).flatten))) := by
      rw [List.append_assoc]
      exact List.Perm.append_left (f x) (List.perm_append_comm_assoc _ _ _)
    have h2 : (f x ++ (g x ++ ((xs.map f).flatten ++ (xs.map g).flatten))).Perm
        (f x ++ g x ++ ((xs.map fun x => f x ++ g x)).flatten) := by
      rw [List.append_assoc]
      exact List.Perm.append_left _ (List.Perm.append_left _ ih)
    exact h1.trans h2

/-- Flattening respects pointwise permutation of the mapped lists. -/
theorem flatten_perm_congr (l : List α) (f g : α → List β)
    (h : ∀ x ∈ l, (f x).Perm (g x)) :
    ((l.map f).flatten).Perm ((l.map g).flatten) := by
  induction l with
  | nil => simp
  | cons x xs ih =>
    simp only [List.map_cons, List.flatten_cons]
    exact (h x (by simp)).append (ih fun x hx => h x (by simp [hx]))

/-- Projecting the indices out of the individually tested pairs of a
straddling leaf gives the filtered index list. -/
theorem map_fst_filter_snd (xs : List ℕ) (h : ℕ → ℚ) (ρ : ℚ) :
    (((xs.map fun i => (i, h i)).filter fun p => p.2 ≤ ρ).map Prod.fst)
      = xs.filter fun i => h i ≤ ρ := by
  induction xs with
  | nil => rfl
  | cons x xs ih =>
    by_cases hx : h x ≤ ρ <;> simp [hx, ih]

/-! ### Exactness of the range search -/

/-- Projecting the indices out of index-distance pairs built over a list. -/
theorem map_fst_pairs (xs : List ℕ) (g : ℕ → ℚ) :
    (xs.map fun i => (i, g i)).map Prod.fst = xs := by
  induction xs with
  | nil => rfl
  | cons x xs ih => simp only [List.map_cons, ih]

/-- Interleaved append is a permutation of the blockwise append. -/
theorem append_interleave_perm (A X B Y : List α) :
    ((A ++ X) ++ (B ++ Y)).Perm ((A ++ B) ++ (X ++ Y)) := by
  rw [List.append_assoc, List.append_assoc]
  exact List.Perm.append_left A (List.perm_append_comm_assoc X B Y)

/-- Splitting the merged range-search assembly of a straddling internal node
into the per-child assemblies, up to permutation. -/
theorem rnn_split (dq : ℕ → ℚ) (ρ : ℚ) (f : ℕ) (cs : List OCl) :
    ((((cs.map (treeSearch dq ρ f)).map Prod.fst).flatten).flatMap
        (rnnConfirmedHits dq) ++
      (((cs.map (treeSearch dq ρ f)).map Prod.snd).flatten).flatMap
        (rnnLeafHits dq ρ)).Perm
      ((cs.map (rnnSearch dq ρ f)).flatten) := by
  induction cs with
  | nil => simp
  | cons c cs ih =>
    simp only [List.map_cons, List.flatten_cons, List.flatMap_append]
    exact (append_interleave_perm _ _ _ _).trans
      (List.Perm.append_left
        ((treeSearch dq ρ f c).1.flatMap (rnnConfirmedHits dq) ++
          (treeSearch dq ρ f c).2.flatMap (rnnLeafHits dq ρ)) ih)

/-- The inductive core of the range-search proof: on a well-formed tree, with
the two directional triangle bounds between the query and the items, the
assembled range-search result carries exact distances and its index list is a
permutation of the linear filter of the root's members. -/
theorem rnnSearch_exact_aux (dq : ℕ → ℚ) (dd : ℕ → ℕ → ℚ)
    (hqc : ∀ i j, dq i ≤ dq j + dd j i)
    (hcq : ∀ i j, dq j ≤ dq i + dd j i)
    (ρ : ℚ) :
    ∀ t, TreeWF dd t → ∀ fuel, sizeOf t ≤ fuel →
      (∀ p ∈ rnnSearch dq ρ fuel t, p.2 = dq p.1) ∧
      ((rnnSearch dq ρ fuel t).map Prod.fst).Perm
        (t.indices.filter fun i => dq i ≤ ρ) := by
  refine OCl.induct _ ?_
  intro card ac r l idxs cs IH hwf fuel hfuel
  cases hwf with
  | node hac hI2 hI1 hwfc =>
  obtain ⟨f, rfl⟩ : ∃ f, fuel = f + 1 := by
    cases fuel with
    | zero => simp only [OCl.node.sizeOf_spec] at hfuel; omega
    | succ f => exact ⟨f, rfl⟩
  by_cases h1 : dq ac + r ≤ ρ
  · -- confirmed cluster: all members are within the radius
    simp only [rnnSearch, treeSearch, if_pos h1, List.flatMap_cons,
      List.flatMap_nil, List.append_nil, rnnConfirmedHits, OCl.isSingleton,
      OCl.radius, OCl.indices, beq_iff_eq]
    by_cases hr : r = 0
    · have hexact : ∀ i ∈ idxs, dq i = dq ac := by
        intro i hi
        have e : dd ac i ≤ 0 := hr ▸ hI2 i hi
        have u := hqc i ac
        have v := hcq i ac
        linarith
      rw [if_pos hr]
      refine ⟨?_, ?_⟩
      · intro p hp
        obtain ⟨i, hi, rfl⟩ := List.mem_map.mp hp
        exact (hexact i hi).symm
      · have hfilt : idxs.filter (fun i => dq i ≤ ρ) = idxs :=
          List.filter_eq_self.mpr fun i hi => by
            rw [hexact i hi]
            simpa using by linarith
        rw [map_fst_pairs, hfilt]
    · rw [if_neg hr]
      refine ⟨?_, ?_⟩
      · intro p hp
        obtain ⟨i, hi, rfl⟩ := List.mem_map.mp hp
        rfl
      · have hfilt : idxs.filter (fun i => dq i ≤ ρ) = idxs :=
          List.filter_eq_self.mpr fun i hi => by
            have := hI2 i hi
            have := hqc i ac
            simpa using by linarith
        rw [map_fst_pairs, hfilt]
  · by_cases h2 : ρ < dq ac - r
    · -- pruned cluster: no member can be within the radius
      simp only [rnnSearch, treeSearch, if_neg h1, if_pos h2,
        List.flatMap_nil, List.append_nil, OCl.indices]
      refine ⟨fun p hp => absurd hp (List.not_mem_nil p), ?_⟩
      have hfilt : idxs.filter (fun i => dq i ≤ ρ) = [] :=
        List.filter_eq_nil_iff.mpr fun i hi => by
          have := hI2 i hi
          have := hcq i ac
          simpa using by linarith
      rw [hfilt]
      simp
    · by_cases h3 : cs.isEmpty
      · -- straddling leaf: each member tested directly
        simp only [rnnSearch, treeSearch, if_neg h1, if_neg h2, if_pos h3,
          List.flatMap_nil, List.nil_append, List.flatMap_cons,
          List.append_nil, rnnLeafHits, OCl.indices]
        refine ⟨?_, ?_⟩
        · intro p hp
          obtain ⟨i, hi, rfl⟩ := List.mem_map.mp (List.mem_of_mem_filter hp)
          rfl
        · rw [map_fst_filter_snd]
      · -- straddling internal node: recurse into the children
        have h3' : cs ≠ [] := by
          intro h
          simp [h] at h3
        have hPerm : (cs.flatMap OCl.indices).Perm idxs := by
          rcases hI1 with h | h
          · exact absurd h h3'
          · exact h
        have hsz : ∀ c ∈ cs, sizeOf c ≤ f := by
          intro c hc
          have := List.sizeOf_lt_of_mem hc
          simp only [OCl.node.sizeOf_spec] at hfuel
          omega
        have key : (rnnSearch dq ρ (f + 1) (OCl.node card ac r l idxs cs)).Perm
            ((cs.map (rnnSearch dq ρ f)).flatten) := by
          have hu : rnnSearch dq ρ (f + 1) (OCl.node card ac r l idxs cs) =
              (((cs.map (treeSearch dq ρ f)).map Prod.fst).flatten).flatMap
                  (rnnConfirmedHits dq) ++
                (((cs.map (treeSearch dq ρ f)).map Prod.snd).flatten).flatMap
                  (rnnLeafHits dq ρ) := by
            simp only [rnnSearch, treeSearch, if_neg h1, if_neg h2, if_neg h3]
          rw [hu]
          exact rnn_split dq ρ f cs
        refine ⟨?_, ?_⟩
        · intro p hp
          have hp' := key.mem_iff.mp hp
          obtain ⟨lp, hlp, hplp⟩ := List.mem_flatten.mp hp'
          obtain ⟨c, hc, rfl⟩ := List.mem_map.mp hlp
          exact (IH c hc (hwfc c hc) f (hsz c hc)).1 p hplp
        · refine (key.map Prod.fst).trans ?_
          rw [List.map_flatten, List.map_map]
          have p2 : ((cs.map fun c => (rnnSearch dq ρ f c).map Prod.fst).flatten).Perm
              ((cs.map fun c => c.indices.filter fun i => dq i ≤ ρ).flatten) :=
            flatten_perm_congr cs _ _ fun c hc => (IH c hc (hwfc c hc) f (hsz c hc)).2
          refine p2.trans ?_
          have e3 : (cs.map fun c => c.indices.filter fun i => dq i ≤ ρ).flatten
              = ((cs.map OCl.indices).flatten).filter fun i => dq i ≤ ρ := by
            rw [List.filter_flatten, List.map_map]
            rfl
          rw [e3]
          exact hPerm.filter _

/-! ## Claim C1: exactness of the range search -/

/-- C1.  For every tree satisfying the build invariants over a dataset whose
distance function is symmetric and satisfies the triangle inequality, every
query `q` and every radius `ρ ≥ 0`, the range search returns exactly the set
of pairs `(i, d(q, data i))` over the member indices `i` of the root with
`d(q, data i) ≤ ρ`: every returned distance is the exact query-to-item
distance, and the returned indices are a permutation of the indices selected
by a linear scan.  No hit is lost to pruning and no index outside the radius
is returned. -/
theorem rnn_range_search_exact {α : Type} (d : α → α → ℚ) (data : ℕ → α)
    (q : α)
    (hsymm : ∀ x y, d x y = d y x)
    (htri : ∀ x y z, d x z ≤ d x y + d y z)
    (t : OCl) (hwf : TreeWF (fun i j => d (data i) (data j)) t)
    (ρ : ℚ) (hρ : 0 ≤ ρ) (fuel : ℕ) (hfuel : sizeOf t ≤ fuel) :
    (∀ p ∈ rnnSearch (fun i => d q (data i)) ρ fuel t,
      p.2 = d q (data p.1)) ∧
    ((rnnSearch (fun i => d q (data i)) ρ fuel t).map Prod.fst).Perm
      (t.indices.filter fun i => d q (data i) ≤ ρ) := by
  refine rnnSearch_exact_aux (fun i => d q (data i))
    (fun i j => d (data i) (data j)) ?_ ?_ ρ t hwf fuel hfuel
  · intro i j
    exact htri q (data j) (data i)
  · intro i j
    have h := htri q (data i) (data j)
    rwa [hsymm (data i) (data j)] at h

/-- Witness for C1: a two-point dataset `{0, 1}` on the rational line with
the absolute-difference metric, a single-leaf tree, query `0`, radius `1/2`;
the search returns exactly index `0`. -/
theorem rnn_range_search_exact_witness :
    TreeWF (fun i j => |((i : ℚ)) - ((j : ℚ))|) (OCl.node 2 0 1 1 [0, 1] []) ∧
      (0 : ℚ) ≤ 1/2 ∧ sizeOf (OCl.node 2 0 1 1 [0, 1] []) ≤ 32 ∧
      ((rnnSearch (fun i => |(0 : ℚ) - ((i : ℚ))|) (1/2) 32
          (OCl.node 2 0 1 1 [0, 1] [])).map Prod.fst).Perm
        (([0, 1] : List ℕ).filter fun i => |(0 : ℚ) - ((i : ℚ))| ≤ 1/2) := by
  have hwf : TreeWF (fun i j => |((i : ℚ)) - ((j : ℚ))|)
      (OCl.node 2 0 1 1 [0, 1] []) := by
    refine TreeWF.node ?_ ?_ (Or.inl rfl) ?_
    · decide
    · intro i hi
      fin_cases hi <;> norm_num
    · intro c hc
      exact absurd hc (List.not_mem_nil c)
  have hsz : sizeOf (OCl.node 2 0 1 1 [0, 1] []) ≤ 32 := by
    decide
  exact ⟨hwf, by norm_num, hsz,
    (rnn_range_search_exact (fun a b => |a - b|) (fun i => (i : ℚ)) 0
      (fun x y => abs_sub_comm x y) (fun x y z => abs_sub_le x y z)
      (OCl.node 2 0 1 1 [0, 1] []) hwf (1/2) (by norm_num) 32 hsz).2⟩

/-! ## The original crate's k-NN search (`KnnAlgorithm`) -/

/-- `MULTIPLIER = 2.0` (`_knn.rs` line 16): the cap on the radius growth
factor of the repeated-RNN search. -/
def MULTIPLIER : ℚ := 2

/-- The ascending-by-distance comparator of the `sort_by` calls in
`_knn.rs` (`partial_cmp` on the distance component; `ℚ` has no NaN, so the
`unwrap_or` arms are unreachable). -/
def distLe (p q : ℕ × ℚ) : Bool := p.2 ≤ q.2

/-- `KnnAlgorithm::linear_search` (`_knn.rs` lines 92-102): compute the
distance from the query to every index, sort ascending by distance with a
stable sort, and slice the first `k` hits.  The slice `hits[..k]` panics
(`none`) when `k` exceeds the number of hits. -/
def linear_search (dq : ℕ → ℚ) (k : ℕ) (indices : List ℕ) :
    Option (List (ℕ × ℚ)) :=
  let distances := indices.map dq
  let hits := indices.zip distances
  let sorted := stableSort distLe hits
  if k ≤ sorted.length then some (sorted.take k) else none

/-- The hit count of `knn_by_rnn` (`_knn.rs` lines 126-130): the sum of the
cardinalities of the confirmed clusters and straddling leaves. -/
def numHits (res : List (OCl × ℚ) × List (OCl × ℚ)) : ℕ :=
  ((res.1 ++ res.2).map fun cδ => cδ.1.card).sum

/-- The mean LFD of the clusters contributing hits
(`_knn.rs` lines 143-149, via `utils::mean`). -/
def meanLfd (res : List (OCl × ℚ) × List (OCl × ℚ)) : ℚ :=
  qmean ((res.1 ++ res.2).map fun cδ => cδ.1.lfd)

/-- The hit assembly of `knn_by_rnn` (`_knn.rs` lines 161-173): every member
of every confirmed cluster and straddling leaf is paired with its distance —
the cluster's `δ` repeated `cardinality` times for singletons, exact
distances otherwise. -/
def knnAssembly (dq : ℕ → ℚ) (res : List (OCl × ℚ) × List (OCl × ℚ)) :
    List (ℕ × ℚ) :=
  (res.1 ++ res.2).flatMap fun cδ =>
    let idxs := cδ.1.indices
    let dists := if cδ.1.isSingleton then List.replicate cδ.1.card cδ.2
      else idxs.map dq
    idxs.zip dists

/-- The zero-hit loop of `knn_by_rnn` (`_knn.rs` lines 132-140): while the
search finds no hits, double the radius and search again.  The `res`
argument is the search result at the current radius. -/
def knnLoop1 (dq : ℕ → ℚ) (t : OCl) (tfuel : ℕ) :
    ℕ → ℚ → List (OCl × ℚ) × List (OCl × ℚ) →
      Option (ℚ × (List (OCl × ℚ) × List (OCl × ℚ)))
  | 0, _, _ => none
  | fuel + 1, radius, res =>
    if numHits res = 0 then
      let radius' := radius * MULTIPLIER
      knnLoop1 dq t tfuel fuel radius' (treeSearch dq radius' tfuel t)
    else some (radius, res)

/-- The radius growth factor of one step of `knn_by_rnn`
(`_knn.rs` line 150): `(k / num_hits).powf(1 / (lfd + EPSILON))` with `lfd`
the mean LFD of the clusters contributing hits. -/
def knnStepFactor (powf : ℚ → ℚ → ℚ) (k : ℕ)
    (res : List (OCl × ℚ) × List (OCl × ℚ)) : ℚ :=
  powf ((k : ℚ) / (numHits res : ℚ)) (1 / (meanLfd res + EPS64))

/-- The growth-cap of `_knn.rs` line 152:
`if factor < MULTIPLIER { factor } else { MULTIPLIER }`. -/
def capMul (f : ℚ) : ℚ := if f < MULTIPLIER then f else MULTIPLIER

/-- The growth loop of `knn_by_rnn` (`_knn.rs` lines 142-159): while the hit
count is below `k`, compute the LFD-driven factor, assert it exceeds `1`
(`none` models the panic), grow the radius by the factor capped at
`MULTIPLIER`, and search again. -/
def knnLoop2 (powf : ℚ → ℚ → ℚ) (dq : ℕ → ℚ) (t : OCl) (tfuel k : ℕ) :
    ℕ → ℚ → List (OCl × ℚ) × List (OCl × ℚ) →
      Option (ℚ × (List (OCl × ℚ) × List (OCl × ℚ)))
  | 0, _, _ => none
  | fuel + 1, radius, res =>
    if numHits res < k then
      if 1 < knnStepFactor powf k res then
        knnLoop2 powf dq t tfuel k fuel
          (radius * capMul (knnStepFactor powf k res))
          (treeSearch dq (radius * capMul (knnStepFactor powf k res)) tfuel t)
      else none
    else some (radius, res)

/-- `KnnAlgorithm::knn_by_rnn` (`_knn.rs` lines 116-177).  Start from radius
`EPSILON + radius(root)/N`; run the zero-hit doubling loop, then the
LFD-driven growth loop; assemble the hits of the final search, sort them
ascending by distance, and slice the first `k` (`hits[..k]`, which panics —
`none` — if fewer than `k` hits were assembled).  `powf` abstracts
`f64::powf`; the loops take fuel and return `none` when it runs out. -/
def knnByRnn (powf : ℚ → ℚ → ℚ) (dq : ℕ → ℚ) (t : OCl) (k fuel : ℕ) :
    Option (List (ℕ × ℚ)) := do
  let (radius1, res1) ← knnLoop1 dq t fuel fuel
    (EPS64 + t.radius / (t.card : ℚ))
    (treeSearch dq (EPS64 + t.radius / (t.card : ℚ)) fuel t)
  let (_, res2) ← knnLoop2 powf dq t fuel k fuel radius1 res1
  if k ≤ (stableSort distLe (knnAssembly dq res2)).length then
    some ((stableSort distLe (knnAssembly dq res2)).take k)
  else none

/-! ## The radius schedule (C6)

The claim describes the repeated-RNN schedule: "Start with
ρ₀ = EPSILON + radius(root)/N.  While the current RNN(q, ρ) returns 0 hits,
ρ ← 2ρ.  Then while |hits| < k, let L be the mean LFD of the clusters
contributing hits; set factor = min(2, (k/|hits|)^(1/(L+EPSILON))), assert
factor > 1, ρ ← ρ·factor; repeat RNN.  Once |hits| ≥ k, sort ascending by
distance and truncate."  Read with §4.3's meaning of "the hits RNN(q, ρ)
returns" — the radius-filtered pairs, `rnnSearch` above — this is
transcribed by `rnnSchedule` below, and the code does *not* follow it
(`knn_by_rnn_diverges_from_rnn_schedule`).  What the code does follow is the
*amended* schedule `knnSchedule` below, identical except that the hit count
is the code's `num_hits`: the total cardinality of the confirmed clusters
and straddling leaves — every straddler member, with no `≤ ρ` filter — and
the final sort-and-truncate acts on that unfiltered assembly. -/

/-- The unfiltered hit list the code accounts with at radius `ρ`: every
member of every cluster the cluster-level search returns (singletons with
the recorded `δ`, other clusters with exact distances), with **no** `≤ ρ`
filter.  Its length equals the code's `num_hits`; it is *not* the
radius-filtered RNN output of §4.3 (`rnnSearch`). -/
def specHits (dq : ℕ → ℚ) (ρ : ℚ) (tfuel : ℕ) (t : OCl) : List (ℕ × ℚ) :=
  knnAssembly dq (treeSearch dq ρ tfuel t)

/-- The doubling loop of the amended schedule: "while the search yields 0
hits, ρ ← 2ρ", with hits counted as the code counts them
(`specHits`, the unfiltered assembly). -/
def schedLoop1 (dq : ℕ → ℚ) (t : OCl) (tfuel : ℕ) : ℕ → ℚ → Option ℚ
  | 0, _ => none
  | fuel + 1, ρ =>
    if (specHits dq ρ tfuel t).length = 0 then
      schedLoop1 dq t tfuel fuel (2 * ρ)
    else some ρ

/-- The claim's growth factor: `min(2, (k/|hits|)^(1/(L+EPSILON)))`. -/
def schedFactor (powf : ℚ → ℚ → ℚ) (k n : ℕ) (L : ℚ) : ℚ :=
  min MULTIPLIER (powf ((k : ℚ) / (n : ℚ)) (1 / (L + EPS64)))

/-- The growth loop of the amended schedule: "while |hits| < k, with L the
mean LFD of the clusters the search returned, set
factor = min(2, (k/|hits|)^(1/(L+EPSILON))), assert factor > 1,
ρ ← ρ·factor", with |hits| counted as the code counts it (`specHits`). -/
def schedLoop2 (powf : ℚ → ℚ → ℚ) (dq : ℕ → ℚ) (t : OCl) (tfuel k : ℕ) :
    ℕ → ℚ → Option ℚ
  | 0, _ => none
  | fuel + 1, ρ =>
    if (specHits dq ρ tfuel t).length < k then
      if 1 < schedFactor powf k (specHits dq ρ tfuel t).length
          (meanLfd (treeSearch dq ρ tfuel t)) then
        schedLoop2 powf dq t tfuel k fuel
          (ρ * schedFactor powf k (specHits dq ρ tfuel t).length
            (meanLfd (treeSearch dq ρ tfuel t)))
      else none
    else some ρ

/-- The amended radius schedule: the claimed initial radius, doubling loop,
capped LFD-driven growth loop and final ascending sort-and-truncate, with
the hit count (and the sorted hits) taken as the unfiltered assembly the
code accounts with (`specHits`) rather than §4.3's radius-filtered RNN
output. -/
def knnSchedule (powf : ℚ → ℚ → ℚ) (dq : ℕ → ℚ) (t : OCl) (k fuel : ℕ) :
    Option (List (ℕ × ℚ)) := do
  let ρ1 ← schedLoop1 dq t fuel fuel (EPS64 + t.radius / (t.card : ℚ))
  let ρ2 ← schedLoop2 powf dq t fuel k fuel ρ1
  some ((stableSort distLe (specHits dq ρ2 fuel t)).take k)

/-- The claim's doubling loop as its words read under §4.3: "While the
current RNN(q, ρ) returns 0 hits, ρ ← 2ρ", with the hits being the
radius-filtered output of the range search (`rnnSearch`). -/
def rnnLoop1 (dq : ℕ → ℚ) (t : OCl) (tfuel : ℕ) : ℕ → ℚ → Option ℚ
  | 0, _ => none
  | fuel + 1, ρ =>
    if (rnnSearch dq ρ tfuel t).length = 0 then
      rnnLoop1 dq t tfuel fuel (2 * ρ)
    else some ρ

/-- The claim's growth loop as its words read under §4.3: "while |hits| < k,
let L be the mean LFD of the clusters contributing hits; set
factor = min(2, (k/|hits|)^(1/(L+EPSILON))), assert factor > 1, ρ ← ρ·factor;
repeat RNN", with |hits| the number of radius-filtered RNN hits and L the
mean LFD of the clusters the search returned. -/
def rnnLoop2 (powf : ℚ → ℚ → ℚ) (dq : ℕ → ℚ) (t : OCl) (tfuel k : ℕ) :
    ℕ → ℚ → Option ℚ
  | 0, _ => none
  | fuel + 1, ρ =>
    if (rnnSearch dq ρ tfuel t).length < k then
      if 1 < schedFactor powf k (rnnSearch dq ρ tfuel t).length
          (meanLfd (treeSearch dq ρ tfuel t)) then
        rnnLoop2 powf dq t tfuel k fuel
          (ρ * schedFactor powf k (rnnSearch dq ρ tfuel t).length
            (meanLfd (treeSearch dq ρ tfuel t)))
      else none
    else some ρ

/-- The radius schedule exactly as the claim words it, under §4.3's meaning
of "the hits RNN(q, ρ) returns": the claimed initial radius, the doubling
loop, the capped growth loop, and the final ascending sort-and-truncate of
the radius-filtered RNN hits. -/
def rnnSchedule (powf : ℚ → ℚ → ℚ) (dq : ℕ → ℚ) (t : OCl) (k fuel : ℕ) :
    Option (List (ℕ × ℚ)) := do
  let ρ1 ← rnnLoop1 dq t fuel fuel (EPS64 + t.radius / (t.card : ℚ))
  let ρ2 ← rnnLoop2 powf dq t fuel k fuel ρ1
  some ((stableSort distLe (rnnSearch dq ρ2 fuel t)).take k)

/-- The cardinality bookkeeping invariant of a built tree: every cluster's
stored cardinality equals the length of its index list. -/
inductive CardWF : OCl → Prop
  | node {card ac : ℕ} {r l : ℚ} {idxs : List ℕ} {cs : List OCl} :
      card = idxs.length →
      (∀ c ∈ cs, CardWF c) →
      CardWF (OCl.node card ac r l idxs cs)

/-! ### The embedded `knn_by_rnn` follows the schedule -/

/-- Insertion keeps the length. -/
theorem insortBy_length (le : α → α → Bool) (x : α) (l : List α) :
    (insortBy le x l).length = l.length + 1 := by
  induction l with
  | nil => rfl
  | cons y ys ih =>
    unfold insortBy
    by_cases h : le x y = true
    · simp [h]
    · simp [h, ih]

/-- The stable sort keeps the length. -/
theorem stableSort_length (le : α → α → Bool) (l : List α) :
    (stableSort le l).length = l.length := by
  induction l with
  | nil => rfl
  | cons x xs ih =>
    unfold stableSort
    rw [insortBy_length, ih]
    rfl

/-- Every cluster the cluster-level search returns satisfies the cardinality
bookkeeping invariant, provided the tree does. -/
theorem treeSearch_cardlen (dq : ℕ → ℚ) (ρ : ℚ) :
    ∀ t, CardWF t → ∀ fuel,
      ∀ cδ ∈ (treeSearch dq ρ fuel t).1 ++ (treeSearch dq ρ fuel t).2,
        cδ.1.card = cδ.1.indices.length := by
  refine OCl.induct _ ?_
  intro card ac r l idxs cs IH hwf fuel cδ hmem
  cases hwf with
  | node hlen hwfc =>
  cases fuel with
  | zero => simp [treeSearch] at hmem
  | succ f =>
    simp only [treeSearch] at hmem
    by_cases h1 : dq ac + r ≤ ρ
    · rw [if_pos h1] at hmem
      simp only [List.append_nil, List.mem_singleton] at hmem
      subst hmem
      exact hlen
    · rw [if_neg h1] at hmem
      by_cases h2 : ρ < dq ac - r
      · rw [if_pos h2] at hmem
        simp at hmem
      · rw [if_neg h2] at hmem
        by_cases h3 : cs.isEmpty
        · rw [if_pos h3] at hmem
          simp only [List.nil_append, List.mem_singleton] at hmem
          subst hmem
          exact hlen
        · rw [if_neg h3] at hmem
          simp only [List.mem_append, List.mem_flatten, List.mem_map] at hmem
          rcases hmem with ⟨lp, ⟨res, ⟨c, hc, rfl⟩, hres⟩, hin⟩ |
            ⟨lp, ⟨res, ⟨c, hc, rfl⟩, hres⟩, hin⟩
          · exact IH c hc (hwfc c hc) f cδ (List.mem_append_left _ (hres ▸ hin))
          · exact IH c hc (hwfc c hc) f cδ (List.mem_append_right _ (hres ▸ hin))

/-- Under the cardinality invariant, the assembled hit list has exactly
`num_hits` entries. -/
theorem knnAssembly_length (dq : ℕ → ℚ)
    (res : List (OCl × ℚ) × List (OCl × ℚ))
    (h : ∀ cδ ∈ res.1 ++ res.2, cδ.1.card = cδ.1.indices.length) :
    (knnAssembly dq res).length = numHits res := by
  unfold knnAssembly numHits
  rw [List.length_flatMap]
  congr 1
  refine List.map_congr_left fun cδ hc => ?_
  have hcard := h cδ hc
  simp only [Function.comp_apply]
  by_cases hs : cδ.1.isSingleton
  · rw [if_pos hs, List.length_zip, List.length_replicate, ← hcard, min_self]
  · rw [if_neg hs, List.length_zip, List.length_map, min_self, hcard]

/-- The hit count the claim speaks of (the length of the assembled hit list)
agrees with the cardinality sum the code computes. -/
theorem specHits_length (dq : ℕ → ℚ) (ρ : ℚ) (tfuel : ℕ) (t : OCl)
    (hw : CardWF t) :
    (specHits dq ρ tfuel t).length = numHits (treeSearch dq ρ tfuel t) :=
  knnAssembly_length dq _ (treeSearch_cardlen dq ρ t hw tfuel)

/-- The zero-hit loop of the code equals the claim's doubling loop. -/
theorem knnLoop1_eq_sched (dq : ℕ → ℚ) (t : OCl) (tfuel : ℕ) (hw : CardWF t) :
    ∀ fuel ρ,
      knnLoop1 dq t tfuel fuel ρ (treeSearch dq ρ tfuel t) =
        (schedLoop1 dq t tfuel fuel ρ).map
          fun ρ' => (ρ', treeSearch dq ρ' tfuel t) := by
  intro fuel
  induction fuel with
  | zero => intro ρ; rfl
  | succ f ih =>
    intro ρ
    unfold knnLoop1 schedLoop1
    rw [specHits_length dq ρ tfuel t hw]
    by_cases h : numHits (treeSearch dq ρ tfuel t) = 0
    · rw [if_pos h, if_pos h]
      have hm : ρ * MULTIPLIER = 2 * ρ := mul_comm ρ 2
      rw [hm]
      exact ih (2 * ρ)
    · rw [if_neg h, if_neg h]
      rfl

/-- The code's growth-cap equals the claim's `min(2, ·)`. -/
theorem capMul_eq_min (f : ℚ) : capMul f = min MULTIPLIER f := by
  unfold capMul
  rcases lt_or_le f MULTIPLIER with h | h
  · rw [if_pos h, min_eq_right (le_of_lt h)]
  · rw [if_neg (not_lt.mpr h), min_eq_left h]

/-- The claim's factor is the code's factor capped at `MULTIPLIER`, and it
exceeds `1` exactly when the code's raw factor does. -/
theorem schedFactor_eq (powf : ℚ → ℚ → ℚ) (k : ℕ)
    (res : List (OCl × ℚ) × List (OCl × ℚ)) :
    schedFactor powf k (numHits res) (meanLfd res)
      = min MULTIPLIER (knnStepFactor powf k res) := rfl

/-- The growth loop of the code equals the claim's growth loop: the code
asserts on the raw factor and multiplies by the capped one, the claim caps
first and asserts after; the two agree. -/
theorem knnLoop2_eq_sched (powf : ℚ → ℚ → ℚ) (dq : ℕ → ℚ) (t : OCl)
    (tfuel k : ℕ) (hw : CardWF t) :
    ∀ fuel ρ,
      knnLoop2 powf dq t tfuel k fuel ρ (treeSearch dq ρ tfuel t) =
        (schedLoop2 powf dq t tfuel k fuel ρ).map
          fun ρ' => (ρ', treeSearch dq ρ' tfuel t) := by
  intro fuel
  induction fuel with
  | zero => intro ρ; rfl
  | succ f ih =>
    intro ρ
    unfold knnLoop2 schedLoop2
    rw [specHits_length dq ρ tfuel t hw, schedFactor_eq]
    by_cases h : numHits (treeSearch dq ρ tfuel t) < k
    · rw [if_pos h, if_pos h]
      have hiff : (1 < min MULTIPLIER (knnStepFactor powf k (treeSearch dq ρ tfuel t)))
          ↔ (1 < knnStepFactor powf k (treeSearch dq ρ tfuel t)) := by
        rw [lt_min_iff]
        exact ⟨fun hh => hh.2, fun hh => ⟨by norm_num [MULTIPLIER], hh⟩⟩
      by_cases hfac : 1 < knnStepFactor powf k (treeSearch dq ρ tfuel t)
      · rw [if_pos hfac, if_pos (hiff.mpr hfac), ← capMul_eq_min]
        exact ih (ρ * capMul (knnStepFactor powf k (treeSearch dq ρ tfuel t)))
      · rw [if_neg hfac, if_neg (fun hh => hfac (hiff.mp hh))]
        rfl
    · rw [if_neg h, if_neg h]
      rfl

/-- When the claim's growth loop stops at a radius, the hits at that radius
number at least `k`. -/
theorem schedLoop2_some (powf : ℚ → ℚ → ℚ) (dq : ℕ → ℚ) (t : OCl)
    (tfuel k : ℕ) :
    ∀ fuel ρ ρ', schedLoop2 powf dq t tfuel k fuel ρ = some ρ' →
      k ≤ (specHits dq ρ' tfuel t).length := by
  intro fuel
  induction fuel with
  | zero => intro ρ ρ' h; exact absurd h (by simp [schedLoop2])
  | succ f ih =>
    intro ρ ρ' h
    unfold schedLoop2 at h
    by_cases h1 : (specHits dq ρ tfuel t).length < k
    · rw [if_pos h1] at h
      by_cases h2 : 1 < schedFactor powf k (specHits dq ρ tfuel t).length
          (meanLfd (treeSearch dq ρ tfuel t))
      · rw [if_pos h2] at h
        exact ih _ ρ' h
      · rw [if_neg h2] at h
        exact absurd h (by simp)
    · rw [if_neg h1] at h
      obtain rfl : ρ = ρ' := by simpa using h
      exact not_lt.mp h1

/-! ## Claim C6: the repeated-RNN radius schedule -/

/-- C6 (amended).  `knn_by_rnn` follows the radius schedule the claim
describes — start at `EPSILON + radius(root)/N`; double while the search
yields no hits; grow by `min(2, (k/|hits|)^(1/(L+EPSILON)))` (asserting the
factor exceeds 1) while the hit count is below `k`; finally sort the hits
ascending by distance and truncate to `k` — with the hit count taken as the
code's `num_hits`: the total cardinality of the confirmed clusters and
straddling leaves (the unfiltered assembly `specHits`, not the
radius-filtered RNN output), both in the loop guards and in the growth
factor, and with the final sort-and-truncate applied to that unfiltered
assembly.  Stated as equality between the embedding of the code and the
amended schedule, for every tree whose stored cardinalities match its index
lists, every abstract `powf`, every `k` and every fuel. -/
theorem knn_by_rnn_follows_schedule (powf : ℚ → ℚ → ℚ) (dq : ℕ → ℚ)
    (t : OCl) (hw : CardWF t) (k fuel : ℕ) :
    knnByRnn powf dq t k fuel = knnSchedule powf dq t k fuel := by
  unfold knnByRnn knnSchedule
  rw [knnLoop1_eq_sched dq t fuel hw]
  cases h1 : schedLoop1 dq t fuel fuel (EPS64 + t.radius / (t.card : ℚ)) with
  | none => rfl
  | some ρ1 =>
    simp only [Option.map_some', Option.bind_eq_bind, Option.some_bind]
    rw [knnLoop2_eq_sched powf dq t fuel k hw]
    cases h2 : schedLoop2 powf dq t fuel k fuel ρ1 with
    | none => rfl
    | some ρ2 =>
      simp only [Option.map_some', Option.bind_eq_bind, Option.some_bind]
      have hk : k ≤ (stableSort distLe (knnAssembly dq (treeSearch dq ρ2 fuel t))).length := by
        rw [stableSort_length]
        have := schedLoop2_some powf dq t fuel k fuel ρ1 ρ2 h2
        simpa [specHits] using this
      rw [if_pos hk]
      rfl

/-- Witness for C6: the schedule equality evaluated on a concrete one-leaf
tree with a concrete (constant) `powf`. -/
theorem knn_by_rnn_follows_schedule_witness :
    CardWF (OCl.node 1 0 0 1 [0] []) ∧
      knnByRnn (fun _ _ => 1) (fun i => (i : ℚ)) (OCl.node 1 0 0 1 [0] []) 1 4 =
        knnSchedule (fun _ _ => 1) (fun i => (i : ℚ)) (OCl.node 1 0 0 1 [0] []) 1 4 := by
  have hw : CardWF (OCl.node 1 0 0 1 [0] []) :=
    CardWF.node (by decide) fun c hc => absurd hc (List.not_mem_nil c)
  exact ⟨hw, knn_by_rnn_follows_schedule (fun _ _ => 1) (fun i => (i : ℚ))
    (OCl.node 1 0 0 1 [0] []) hw 1 4⟩

/-! ## Claims C2 and C3: failures of the k-NN searches

A concrete dataset on the rational line exhibiting the divergence between
`knn_by_rnn` and the linear baseline: the item positions are
`pos 0 = 1`, `pos 1 = … = pos 9 = 15`, `pos 10 = 5/2`, the query sits at
`0`.  The tree has two children: a leaf holding items `0..9` (center `1`,
radius `14`) and a leaf holding item `10` (radius `0`); this tree satisfies
all build invariants. -/

/-- The item positions of the counterexample dataset. -/
def cexPos (i : ℕ) : ℚ := if i = 0 then 1 else if i = 10 then 5/2 else 15

/-- Query-to-item distances of the counterexample (query at `0`; all
positions are positive, so the distance is the position itself). -/
def cexDq (i : ℕ) : ℚ := cexPos i

/-- Item-to-item distances of the counterexample (absolute difference on
the line, written with an explicit case split so it evaluates). -/
def cexDd (i j : ℕ) : ℚ :=
  if cexPos i ≤ cexPos j then cexPos j - cexPos i else cexPos i - cexPos j

/-- The leaf holding items `0..9`: center `1` (at position 15), radius
`14`. -/
def cexLeafA : OCl := .node 10 1 14 1 [0, 1, 2, 3, 4, 5, 6, 7, 8, 9] []

/-- The leaf holding item `10`: center `10`, radius `0`. -/
def cexLeafB : OCl := .node 1 10 0 1 [10] []

/-- The root: all eleven items, center `1`, radius `14`. -/
def cexRoot : OCl :=
  .node 11 1 14 1 [0, 1, 2, 3, 4, 5, 6, 7, 8, 9, 10] [cexLeafA, cexLeafB]

/-- The counterexample tree satisfies the build invariants. -/
theorem cexRoot_wf : TreeWF cexDd cexRoot ∧ CardWF cexRoot := by
  have hA : TreeWF cexDd cexLeafA :=
    TreeWF.node (by decide) (by decide) (Or.inl rfl)
      fun c hc => absurd hc (List.not_mem_nil c)
  have hB : TreeWF cexDd cexLeafB :=
    TreeWF.node (by decide) (by decide) (Or.inl rfl)
      fun c hc => absurd hc (List.not_mem_nil c)
  have hcA : CardWF cexLeafA :=
    CardWF.node (by decide) fun c hc => absurd hc (List.not_mem_nil c)
  have hcB : CardWF cexLeafB :=
    CardWF.node (by decide) fun c hc => absurd hc (List.not_mem_nil c)
  constructor
  · refine TreeWF.node (by decide) (by decide) (Or.inr (by decide)) ?_
    intro c hc
    fin_cases hc
    · exact hA
    · exact hB
  · refine CardWF.node (by decide) ?_
    intro c hc
    fin_cases hc
    · exact hcA
    · exact hcB

/-! ## Claim C2: agreement of the k-NN algorithms with the linear baseline -/

/-- C2 (failing run).  On the counterexample dataset with `k = 2`,
`knn_by_rnn` returns items `0` and `1` at distances `1` and `15`, while the
linear baseline returns items `0` and `10` at distances `1` and `5/2`: the
index sets and the distance sequences differ, because `knn_by_rnn` counts
every member of the straddling leaf `0..9` as a hit (ten members, though
nine lie beyond the search radius ≈ 1.27), stops growing the radius, never
reaches the pruned leaf holding item `10` at distance `5/2`, and its final
assembly never filters by the radius.  The growth factor (`powf`) is
irrelevant: no growth iteration runs. -/
theorem knn_by_rnn_disagrees_with_linear :
    knnByRnn (fun _ _ => 1) cexDq cexRoot 2 20 =
        some [(0, 1), (1, 15)] ∧
      linear_search cexDq 2 [0, 1, 2, 3, 4, 5, 6, 7, 8, 9, 10] =
        some [(0, 1), (10, 5/2)] := by
  constructor
  · decide
  · decide

/-! ## Claim C3: behaviour of the linear search when `k` exceeds `N` -/

/-- C3 (failing run).  `KnnAlgorithm::linear_search` slices `hits[..k]`
after sorting; on a dataset of `N = 2 < k = 3` items the slice is out of
bounds and the call panics (`none`) instead of returning the `N` hits,
while the same call with `k = 2 ≤ N` succeeds. -/
theorem linear_search_panics_when_k_exceeds_n :
    linear_search (fun i => (i : ℚ)) 3 [0, 1] = none ∧
      linear_search (fun i => (i : ℚ)) 2 [0, 1] = some [(0, 0), (1, 1)] := by
  constructor
  · decide
  · decide

/-- C6 (counterexample).  On the eleven-point line dataset of C2 with
`k = 2` and a growth `powf` of constant `2`, the code and the claimed
schedule part ways over what "the hits RNN(q, ρ) returns" are.  The claimed
schedule (`rnnSchedule`, hits = the radius-filtered RNN output of §4.3)
counts a single hit at the initial radius ≈ 1.27, grows the radius once to
≈ 2.55, and returns the two true nearest neighbours `[(0,1), (10,5/2)]`.
The code (`knn_by_rnn`) counts all ten members of the straddling leaf as
hits, never grows the radius, and returns `[(0,1), (1,15)]` — an item far
outside every searched radius.  So `knn_by_rnn` does not follow the
schedule as the claim states it. -/
theorem knn_by_rnn_diverges_from_rnn_schedule :
    knnByRnn (fun _ _ => (2 : ℚ)) cexDq cexRoot 2 20 =
        some [(0, 1), (1, 15)] ∧
      rnnSchedule (fun _ _ => (2 : ℚ)) cexDq cexRoot 2 20 =
        some [(0, 1), (10, 5/2)] ∧
      (some [(0, 1), (1, 15)] : Option (List (ℕ × ℚ))) ≠
        some [(0, 1), (10, 5/2)] := by
  constructor
  · decide
  constructor
  · decide
  · decide


/-! ## Claim C4: the stored LFD formula -/

/-- C4.  `compute_lfd` returns `1` when the radius is zero; otherwise it
returns `log₂(|I| / |{j : d(center,j) ≤ radius/2}|)` when that count is
positive and `1` when the count is zero — exactly the formula the
specification states for the stored local fractal dimension. -/
theorem compute_lfd_matches_spec (radius : ℚ) (distances : List ℚ) :
    (radius = 0 → compute_lfd radius distances = 1) ∧
    (radius ≠ 0 → 0 < halfCount radius distances →
      compute_lfd radius distances =
        Real.logb 2 ((distances.length : ℝ) / (halfCount radius distances : ℝ))) ∧
    (radius ≠ 0 → halfCount radius distances = 0 →
      compute_lfd radius distances = 1) := by
  unfold compute_lfd halfCount
  refine ⟨fun h0 => by simp [h0], fun h0 hpos => ?_, fun h0 hzero => ?_⟩
  · rw [if_neg h0, if_pos]
    exact hpos
  · rw [if_neg h0, if_neg]
    omega

/-- Witness for C4: a concrete radius and distance list hitting the
positive-count branch, where the LFD evaluates to `log₂ (2 / 1)`. -/
theorem compute_lfd_matches_spec_witness :
    (2 : ℚ) ≠ 0 ∧ 0 < halfCount 2 [1/2, 2] ∧
      compute_lfd 2 [1/2, 2] = Real.logb 2 ((2 : ℝ) / (1 : ℝ)) := by
  refine ⟨by norm_num, by decide, ?_⟩
  have h := (compute_lfd_matches_spec 2 [1/2, 2]).2.1 (by norm_num) (by decide)
  have hc : halfCount 2 [1/2, 2] = 1 := by decide
  rw [h, hc]
  norm_num

/-! ## Claim C7: the growth-factor assertion never fires -/

/-- C7.  Whenever the radius-growth step of `knn_by_rnn` runs — that is,
`0 < num_hits < k`, with the per-cluster LFD values non-negative as produced
by `compute_lfd` — the factor `(k/num_hits)^(1/(L+EPSILON))` is strictly
greater than `1`, so `assert!(factor > 1.)` cannot fire. -/
theorem knn_factor_gt_one (k numHits : ℕ) (lfds : List ℚ)
    (h0 : 0 < numHits) (hk : numHits < k) (hlfd : ∀ x ∈ lfds, 0 ≤ x) :
    1 < knnFactor k numHits lfds := by
  unfold knnFactor
  have hn : (0 : ℝ) < (numHits : ℝ) := by exact_mod_cast h0
  have hbase : (1 : ℝ) < (k : ℝ) / (numHits : ℝ) := by
    rw [lt_div_iff₀ hn, one_mul]
    exact_mod_cast hk
  have hmean : (0 : ℝ) ≤ ((qmean lfds : ℚ) : ℝ) := by
    have : (0 : ℚ) ≤ qmean lfds :=
      div_nonneg (List.sum_nonneg hlfd) (by positivity)
    exact_mod_cast this
  have heps : (0 : ℝ) < ((EPS64 : ℚ) : ℝ) := by
    have : (0 : ℚ) < EPS64 := by norm_num [EPS64]
    exact_mod_cast this
  have hexp : (0 : ℝ) < (1 : ℝ) / (((qmean lfds : ℚ) : ℝ) + ((EPS64 : ℚ) : ℝ)) := by
    positivity
  exact (Real.one_lt_rpow_iff_of_pos (lt_trans one_pos hbase)).mpr
    (Or.inl ⟨hbase, hexp⟩)

/-- Witness for C7: with `k = 2`, one hit so far, and a single contributing
cluster of LFD `1`, the growth factor exceeds `1`. -/
theorem knn_factor_gt_one_witness :
    0 < 1 ∧ 1 < 2 ∧ (∀ x ∈ ([1] : List ℚ), 0 ≤ x) ∧ 1 < knnFactor 2 1 [1] :=
  ⟨by decide, by decide, by decide,
    knn_factor_gt_one 2 1 [1] (by decide) (by decide) (by decide)⟩

/-! ## The compressed dataset (`CodecData`, newer crate) -/

/-- `CodecData` (`codec_data.rs`): the fields its `get` method touches — the
dataset cardinality and the map from permuted indices to the decoded items of
the cluster centers.  The `HashMap` is modelled as an association list with
pairwise-distinct keys. -/
structure CodecData (I : Type) where
  /-- `CodecData::cardinality`. -/
  cardinality : ℕ
  /-- `CodecData::centers`. -/
  centers : List (ℕ × I)

/-- `CodecData::get` (`codec_data.rs` lines 78-85): look the index up among
the stored cluster centers; on a miss the code panics ("the `get` method may
only be used for cluster centers"), modelled as `none`. -/
def CodecData.get {I : Type} (cd : CodecData I) (index : ℕ) : Option I :=
  cd.centers.lookup index

/-! ## Claim C8: `get` on the compressed dataset -/

/-- C8.  On a compressed dataset whose center keys are pairwise distinct (as
`HashMap` keys are), `get i` returns the stored item whenever `i` is a key of
the centers map, and panics (`none`) for every other index. -/
theorem codec_get_only_centers {I : Type} (cd : CodecData I) (i : ℕ)
    (hnd : (cd.centers.map Prod.fst).Nodup) :
    (∀ v, (i, v) ∈ cd.centers → cd.get i = some v) ∧
      (i ∉ cd.centers.map Prod.fst → cd.get i = none) := by
  obtain ⟨N, centers⟩ := cd
  unfold CodecData.get
  simp only at hnd ⊢
  induction centers with
  | nil =>
    exact ⟨fun v hv => absurd hv (List.not_mem_nil _), fun _ => rfl⟩
  | cons p l ih =>
    obtain ⟨a, b⟩ := p
    simp only [List.map_cons, List.nodup_cons] at hnd
    constructor
    · intro v hv
      rcases List.mem_cons.mp hv with h | h
      · cases h
        simp [List.lookup]
      · have hne : i ≠ a := by
          rintro rfl
          exact hnd.1 (List.mem_map.mpr ⟨(i, v), h, rfl⟩)
        have hb : (i == a) = false := beq_eq_false_iff_ne.mpr hne
        simp only [List.lookup, hb]
        exact (ih hnd.2).1 v h
    · intro hmem
      simp only [List.map_cons, List.mem_cons] at hmem
      push_neg at hmem
      have hb : (i == a) = false := beq_eq_false_iff_ne.mpr hmem.1
      simp only [List.lookup, hb]
      exact (ih hnd.2).2 hmem.2

/-- Witness for C8: a concrete two-center map; `get` succeeds on the key `0`
with the stored item and panics on the non-key `1`. -/
theorem codec_get_only_centers_witness :
    ((([(0, 7), (2, 9)] : List (ℕ × ℕ)).map Prod.fst).Nodup ∧
      CodecData.get ⟨3, [(0, 7), (2, 9)]⟩ 0 = some 7) ∧
      CodecData.get ⟨3, [(0, 7), (2, 9)]⟩ 1 = none := by
  refine ⟨⟨by decide, ?_⟩, ?_⟩
  · exact (codec_get_only_centers ⟨3, [(0, 7), (2, 9)]⟩ 0 (by decide)).1 7
      (by decide)
  · exact (codec_get_only_centers ⟨3, [(0, 7), (2, 9)]⟩ 1 (by decide)).2
      (by decide)

/-! ## The `OffsetBall` adaptation (newer crate, `offset_ball.rs`)

The newer crate adapts a built `Ball` tree into an `OffsetBall` tree: the
per-node index list collapses to a single offset, and the dataset is permuted
so that every node's members occupy `[offset, offset + cardinality)`.
Children are stored as `(extremum index, extent, child)` triples. -/

/-- A node of the source `Ball` tree. -/
inductive SBall where
  | node (card : ℕ) (argCenter argRadial : ℕ) (radius : ℚ)
      (indices : List ℕ) (children : List (ℕ × ℚ × SBall))

namespace SBall

/-- `Ball::cardinality`. -/
def card : SBall → ℕ
  | node c _ _ _ _ _ => c

/-- `Ball::indices`. -/
def indices : SBall → List ℕ
  | node _ _ _ _ idxs _ => idxs

/-- `Ball::children`. -/
def children : SBall → List (ℕ × ℚ × SBall)
  | node _ _ _ _ _ cs => cs

/-- Structural induction over a source tree, recursing through the child
triples. -/
theorem sinduct (P : SBall → Prop)
    (h : ∀ card ac ar r idxs cs,
      (∀ ec ∈ cs, P ec.2.2) → P (node card ac ar r idxs cs)) :
    ∀ t, P t
  | node card ac ar r idxs cs =>
    h card ac ar r idxs cs fun ec hec => sinduct P h ec.2.2
termination_by t => sizeOf t
decreasing_by
  have h1 := List.sizeOf_lt_of_mem hec
  obtain ⟨e, x, c⟩ := ec
  simp only [Prod.mk.sizeOf_spec] at h1
  simp only [node.sizeOf_spec]
  omega

end SBall

/-- A node of the adapted `OffsetBall` tree: the source's data plus the
`offset` parameter; the index list is gone. -/
inductive OBall where
  | node (card : ℕ) (argCenter argRadial : ℕ) (radius : ℚ) (offset : ℕ)
      (children : List (ℕ × ℚ × OBall))

namespace OBall

/-- `OffsetBall::cardinality` (delegated to the source). -/
def card : OBall → ℕ
  | node c _ _ _ _ _ => c

/-- `OffsetBall::offset`. -/
def offset : OBall → ℕ
  | node _ _ _ _ o _ => o

/-- `OffsetBall::children`. -/
def children : OBall → List (ℕ × ℚ × OBall)
  | node _ _ _ _ _ cs => cs

/-- `OffsetBall::indices` (`offset_ball.rs` lines 259-261): the half-open
range `offset .. offset + cardinality`. -/
def indicesOf (c : OBall) : List ℕ := List.range' c.offset c.card

end OBall

/-- `new_index` (`offset_ball.rs` lines 107-114): the position of `i` in the
collected index list, shifted by the node's offset. -/
def newIndex (i : ℕ) (idxs : List ℕ) (off : ℕ) : ℕ := off + idxs.indexOf i

/-- The recursive child adaptation: `OffsetParams::child_params`
(`offset_ball.rs` lines 173-185) assigns each child the running offset and
advances it by the child's (source) cardinality; each child is then adapted
at its offset (`Adapter::adapt`, lines 62-67), and the children's returned
index lists are concatenated.  `adaptOne` is the adaptation of a single
subtree, abstracted so the recursion is structural on the list. -/
def adaptList (adaptOne : SBall → ℕ → OBall × List ℕ) :
    ℕ → List (ℕ × ℚ × SBall) → List (ℕ × ℚ × OBall) × List ℕ
  | _, [] => ([], [])
  | off, ec :: rest =>
    ((ec.1, ec.2.1, (adaptOne ec.2.2 off).1) ::
        (adaptList adaptOne (off + ec.2.2.card) rest).1,
      (adaptOne ec.2.2 off).2 ++ (adaptList adaptOne (off + ec.2.2.card) rest).2)

/-- `Adapter::adapt` for `OffsetBall` (`offset_ball.rs` lines 47-88): a leaf
keeps its collected indices; an internal node adapts its children at
consecutive offsets and concatenates their returned indices; then
`arg_center`, `arg_radial` and every child edge's extremum index are
rewritten through `new_index` relative to the collected indices and the
node's offset.  Structural on fuel; fuel at least the tree size suffices. -/
def adapt : ℕ → SBall → ℕ → OBall × List ℕ
  | 0, .node card _ _ r idxs _, off =>
    (.node card 0 0 r off [], idxs)
  | fuel + 1, .node card ac ar r idxs cs, off =>
    if cs.isEmpty then
      (.node card (newIndex ac idxs off) (newIndex ar idxs off) r off [], idxs)
    else
      (.node card (newIndex ac (adaptList (adapt fuel) off cs).2 off)
        (newIndex ar (adaptList (adapt fuel) off cs).2 off) r off
        ((adaptList (adapt fuel) off cs).1.map fun ec =>
          (newIndex ec.1 (adaptList (adapt fuel) off cs).2 off, ec.2.1, ec.2.2)),
        (adaptList (adapt fuel) off cs).2)

/-- The cardinality-sum invariant (I1's counting consequence) of a built
source tree: every internal node's cardinality is the sum of its children's
cardinalities. -/
inductive SCardWF : SBall → Prop
  | node {card ac ar : ℕ} {r : ℚ} {idxs : List ℕ}
      {cs : List (ℕ × ℚ × SBall)} :
      (cs ≠ [] → card = (cs.map fun ec => ec.2.2.card).sum) →
      (∀ ec ∈ cs, SCardWF ec.2.2) →
      SCardWF (.node card ac ar r idxs cs)

/-- The offset-contiguity invariant of an adapted tree: at every node the
children's index ranges, in order, concatenate exactly to the parent's index
range — so the children's offsets are consecutive starting at the parent's
offset and their ranges cover the parent's range. -/
inductive OffsetsOk : OBall → Prop
  | node {card ac ar : ℕ} {r : ℚ} {off : ℕ}
      {cs : List (ℕ × ℚ × OBall)} :
      (cs ≠ [] →
        (cs.map fun ec => OBall.indicesOf ec.2.2).flatten
          = List.range' off card) →
      (∀ ec ∈ cs, OffsetsOk ec.2.2) →
      OffsetsOk (.node card ac ar r off cs)

/-! ### The adaptation produces contiguous offsets -/

/-- Consecutive ranges concatenate. -/
theorem range'_append_consec (s m n : ℕ) :
    List.range' s m ++ List.range' (s + m) n = List.range' s (m + n) := by
  have h := List.range'_append s m n 1
  simpa [Nat.add_comm n m] using h.symm

/-- The inductive core of the offset-contiguity proof: adapting a tree
satisfying the cardinality-sum invariant at any offset yields a tree whose
offsets are contiguous, rooted at the requested offset with the source's
cardinality. -/
theorem adapt_offsets :
    ∀ s, SCardWF s → ∀ fuel, sizeOf s ≤ fuel → ∀ off,
      OffsetsOk (adapt fuel s off).1 ∧ (adapt fuel s off).1.offset = off ∧
        (adapt fuel s off).1.card = s.card := by
  refine SBall.sinduct _ ?_
  intro card ac ar r idxs cs IH hwf fuel hfuel off
  cases hwf with
  | node hsum hwfc =>
  obtain ⟨f, rfl⟩ : ∃ f, fuel = f + 1 := by
    cases fuel with
    | zero => simp only [SBall.node.sizeOf_spec] at hfuel; omega
    | succ f => exact ⟨f, rfl⟩
  have hsz : ∀ ec ∈ cs, sizeOf ec.2.2 ≤ f := by
    intro ec hec
    have h1 := List.sizeOf_lt_of_mem hec
    obtain ⟨e, x, c⟩ := ec
    simp only [Prod.mk.sizeOf_spec] at h1
    simp only [SBall.node.sizeOf_spec] at hfuel
    show sizeOf c ≤ f
    omega
  by_cases hcs : cs.isEmpty
  · simp only [adapt, if_pos hcs]
    refine ⟨OffsetsOk.node (fun h => absurd rfl h) ?_, rfl, rfl⟩
    intro ec hec
    exact absurd hec (List.not_mem_nil ec)
  · have hlist : ∀ (l : List (ℕ × ℚ × SBall)),
        (∀ ec ∈ l, SCardWF ec.2.2) → (∀ ec ∈ l, sizeOf ec.2.2 ≤ f) →
        (∀ ec ∈ l, ∀ o,
          OffsetsOk (adapt f ec.2.2 o).1 ∧ (adapt f ec.2.2 o).1.offset = o ∧
            (adapt f ec.2.2 o).1.card = ec.2.2.card) →
        ∀ o,
          ((adaptList (adapt f) o l).1.map fun ec =>
            OBall.indicesOf ec.2.2).flatten
              = List.range' o ((l.map fun ec => ec.2.2.card).sum) ∧
          (∀ ec ∈ (adaptList (adapt f) o l).1, OffsetsOk ec.2.2) := by
      intro l
      induction l with
      | nil =>
        intro _ _ _ o
        exact ⟨rfl, fun ec hec => absurd hec (List.not_mem_nil ec)⟩
      | cons ec rest ihl =>
        intro hw hs hIH o
        have hec := hIH ec (by simp) o
        have hrest := ihl (fun x hx => hw x (by simp [hx]))
          (fun x hx => hs x (by simp [hx]))
          (fun x hx => hIH x (by simp [hx])) (o + ec.2.2.card)
        constructor
        · simp only [adaptList, List.map_cons, List.flatten_cons]
          rw [hrest.1]
          have h1 : OBall.indicesOf (adapt f ec.2.2 o).1
              = List.range' o ec.2.2.card := by
            unfold OBall.indicesOf
            rw [hec.2.1, hec.2.2]
          rw [h1, range'_append_consec]
          rfl
        · intro x hx
          simp only [adaptList, List.mem_cons] at hx
          rcases hx with rfl | hx
          · exact hec.1
          · exact hrest.2 x hx
    have hIHall : ∀ ec ∈ cs, ∀ o,
        OffsetsOk (adapt f ec.2.2 o).1 ∧ (adapt f ec.2.2 o).1.offset = o ∧
          (adapt f ec.2.2 o).1.card = ec.2.2.card :=
      fun ec hec o => IH ec hec (hwfc ec hec) f (hsz ec hec) o
    have hmain := hlist cs hwfc hsz hIHall off
    simp only [adapt, if_neg hcs]
    refine ⟨OffsetsOk.node ?_ ?_, rfl, rfl⟩
    · intro _
      have hmap : (((adaptList (adapt f) off cs).1.map fun ec =>
            (newIndex ec.1 (adaptList (adapt f) off cs).2 off, ec.2.1, ec.2.2)).map
              fun ec => OBall.indicesOf ec.2.2)
          = (adaptList (adapt f) off cs).1.map fun ec => OBall.indicesOf ec.2.2 := by
        rw [List.map_map]
        exact List.map_congr_left fun ec hec => rfl
      rw [hmap, hmain.1, hsum (by simpa using hcs)]
    · intro ec hec
      obtain ⟨x, hx, rfl⟩ := List.mem_map.mp hec
      exact hmain.2 x hx

/-! ## Claim C5: offset contiguity of the adapted tree -/

/-- C5.  After `OffsetBall` adaptation of any built tree (any source tree
satisfying the cardinality-sum invariant `I1` implies), every node's index
list is exactly the half-open range `[offset, offset + cardinality)` — that
is what `OffsetBall::indices` returns — and at every internal node the
children's ranges, in order, concatenate exactly to the parent's range: the
first child's offset is the parent's offset, each later child's offset is
the previous child's offset plus its cardinality, and together they cover
the parent's range. -/
theorem offset_ball_contiguity (s : SBall) (hw : SCardWF s) (fuel : ℕ)
    (hfuel : sizeOf s ≤ fuel) (off : ℕ) :
    (∀ c : OBall, OBall.indicesOf c = List.range' c.offset c.card) ∧
      OffsetsOk (adapt fuel s off).1 ∧
      (adapt fuel s off).1.offset = off ∧
      (adapt fuel s off).1.card = s.card :=
  ⟨fun _ => rfl, adapt_offsets s hw fuel hfuel off⟩

/-- Witness for C5: a three-item source tree with two leaf children,
adapted at offset 0. -/
theorem offset_ball_contiguity_witness :
    SCardWF (SBall.node 3 0 2 5 [7, 3, 9]
        [(7, 2, SBall.node 2 7 9 2 [7, 9] []), (3, 0, SBall.node 1 3 3 0 [3] [])]) ∧
      sizeOf (SBall.node 3 0 2 5 [7, 3, 9]
        [(7, 2, SBall.node 2 7 9 2 [7, 9] []), (3, 0, SBall.node 1 3 3 0 [3] [])]) ≤ 128 ∧
      OffsetsOk (adapt 128 (SBall.node 3 0 2 5 [7, 3, 9]
        [(7, 2, SBall.node 2 7 9 2 [7, 9] []), (3, 0, SBall.node 1 3 3 0 [3] [])]) 0).1 := by
  have h1 : SCardWF (SBall.node 2 7 9 2 [7, 9] []) :=
    SCardWF.node (fun h => absurd rfl h) fun ec hec => absurd hec (List.not_mem_nil ec)
  have h2 : SCardWF (SBall.node 1 3 3 0 [3] []) :=
    SCardWF.node (fun h => absurd rfl h) fun ec hec => absurd hec (List.not_mem_nil ec)
  have hw : SCardWF (SBall.node 3 0 2 5 [7, 3, 9]
      [(7, 2, SBall.node 2 7 9 2 [7, 9] []), (3, 0, SBall.node 1 3 3 0 [3] [])]) := by
    refine SCardWF.node (fun _ => by decide) ?_
    intro ec hec
    fin_cases hec
    · exact h1
    · exact h2
  have hsz : sizeOf (SBall.node 3 0 2 5 [7, 3, 9]
      [(7, 2, SBall.node 2 7 9 2 [7, 9] []), (3, 0, SBall.node 1 3 3 0 [3] [])]) ≤ 128 := by
    decide
  exact ⟨hw, hsz, (offset_ball_contiguity _ hw 128 hsz 0).2.1⟩

/-! ## Claim C9: clearing the index lists of an `OffsetBall` tree -/

/-- `OffsetBall::set_indices` (`offset_ball.rs` lines 263-266):
`let offset = indices[0]` — indexing an empty vector panics (`none`);
otherwise the node's offset becomes the first entry of the list. -/
def OBall.set_indices (c : OBall) (idxs : List ℕ) : Option OBall :=
  match idxs, c with
  | [], _ => none
  | o :: _, .node card ac ar r _ cs => some (.node card ac ar r o cs)

/-- `Cluster::clear_indices` (`core/cluster/mod.rs` lines 106-112): clear
every child's indices first (when the node is not a leaf), then set this
node's indices to the empty vector. -/
def OBall.clear_indices : ℕ → OBall → Option OBall
  | 0, _ => none
  | fuel + 1, .node card ac ar r off cs =>
    (cs.mapM fun ec => (OBall.clear_indices fuel ec.2.2).map
        fun c' => (ec.1, ec.2.1, c')).bind
      fun cs' => OBall.set_indices (.node card ac ar r off cs') []

/-- C9 (failing run).  Index clearing on an `OffsetBall` tree never
completes: `clear_indices` ends by calling `set_indices(Vec::new())`, and
`OffsetBall::set_indices` reads `indices[0]`, which panics on the empty
vector — on every tree and every fuel.  The claim that the operation
completes without error, leaving the `(offset, cardinality)` pair usable,
is refuted. -/
theorem clear_indices_always_panics (fuel : ℕ) (c : OBall) :
    OBall.clear_indices fuel c = none := by
  cases fuel with
  | zero => rfl
  | succ f =>
    cases c with
    | node card ac ar r off cs =>
      have hb : ∀ (o : Option (List (ℕ × ℚ × OBall)))
          (g : List (ℕ × ℚ × OBall) → Option OBall),
          (∀ a, g a = none) → o.bind g = none := by
        intro o g hg
        cases o with
        | none => rfl
        | some a => exact hg a
      exact hb _ _ fun cs' => rfl

/-! ## The breadth-first k-NN sieve (newer crate, `knn_breadth_first.rs`)

The newer crate's `Cluster` is generic; the `Ball`-shaped instance stores
cardinality, center, radius, indices and `(extremum, extent, child)`
children. -/

/-- A node of the newer crate's cluster tree. -/
inductive NC where
  | node (card argCenter : ℕ) (radius : ℚ) (indices : List ℕ)
      (children : List (ℕ × ℚ × NC))

namespace NC

/-- `Cluster::cardinality`. -/
def card : NC → ℕ
  | node c _ _ _ _ => c

/-- `Cluster::arg_center`. -/
def argCenter : NC → ℕ
  | node _ a _ _ _ => a

/-- `Cluster::radius`. -/
def radius : NC → ℚ
  | node _ _ r _ _ => r

/-- `Cluster::indices`. -/
def indices : NC → List ℕ
  | node _ _ _ idxs _ => idxs

/-- `Cluster::children`. -/
def children : NC → List (ℕ × ℚ × NC)
  | node _ _ _ _ cs => cs

/-- `Cluster::is_leaf` (`core/cluster/mod.rs` lines 311-314). -/
def isLeaf (c : NC) : Bool := c.children.isEmpty

/-- `Cluster::is_singleton` (`core/cluster/mod.rs` lines 316-319):
`cardinality == 1 || radius < U::EPSILON`. -/
def isSingleton (eps : ℚ) (c : NC) : Bool :=
  c.card == 1 || decide (c.radius < eps)

end NC

/-- The lexicographic order of Rust's `(U, usize)` tuples, used by the
max-heap of hits. -/
def hitsLex (p q : ℚ × ℕ) : Bool :=
  decide (p.1 < q.1) || (decide (p.1 = q.1) && decide (p.2 ≤ q.2))

/-- The candidate order: ascending by the `d_max` key. -/
def candLe (p q : ℚ × NC) : Bool := decide (p.1 ≤ q.1)

/-- Modelled from the spec: `SizedHeap` is not under `src/`; §4.4 describes
"a max-heap of current hits (capped at k)".  The heap is modelled as a list
sorted ascending by `(distance, index)`; a push inserts in order and, when
the cap is exceeded, drops the maximal element. -/
def hitsPush (k : ℕ) (h : List (ℚ × ℕ)) (x : ℚ × ℕ) : List (ℚ × ℕ) :=
  if (insortBy hitsLex x h).length ≤ k then insortBy hitsLex x h
  else (insortBy hitsLex x h).dropLast

/-- The scan of `split_candidates` (`knn_breadth_first.rs` lines 119-126):
the position of the first candidate at which the cumulative cardinality
(starting from the current number of hits) exceeds `k`. -/
def thrIdx (k : ℕ) : ℕ → List ℕ → Option ℕ
  | _, [] => none
  | acc, c :: rest =>
    if k < acc + c then some 0 else (thrIdx k (acc + c) rest).map (· + 1)

/-- `split_candidates` (`knn_breadth_first.rs` lines 106-155).  The sorted
candidates are split three ways: *needed* (`d_max` below the threshold),
*not needed* (`d_max` minus the diameter above the threshold) and
*maybe needed* (the rest).  The threshold is the larger of the current k-th
hit distance and the `d_max` at the threshold index. -/
def splitCandidates (k : ℕ) (hits : List (ℚ × ℕ)) (cands : List (ℚ × NC)) :
    List (ℚ × NC) × List (ℚ × NC) × List (ℚ × NC) :=
  let ti := (thrIdx k hits.length (cands.map fun dc => dc.2.card)).getD
    (cands.length - 1)
  let d := ((cands.get? ti).map Prod.fst).getD 0
  let kth := ((hits.getLast?).map Prod.fst).getD 0
  let threshold := if d < kth then kth else d
  let needed := cands.filter fun dc => decide (dc.1 < threshold)
  let rest := cands.filter fun dc => !decide (dc.1 < threshold)
  let dimmed := fun dc : ℚ × NC =>
    if dc.1 ≤ 2 * dc.2.radius then (0 : ℚ) else dc.1 - 2 * dc.2.radius
  let notNeeded := rest.filter fun dc => decide (threshold < dimmed dc)
  let maybeNeeded := rest.filter fun dc => !decide (threshold < dimmed dc)
  (needed, maybeNeeded, notNeeded)

/-- One candidate round of `search` (`knn_breadth_first.rs` lines 23-47):
split the candidates, process the needed and maybe-needed leaves (singleton
leaves push every member with the queueing distance `d_max`, other leaves
push exact distances), and queue the children of the needed and maybe-needed
internal nodes keyed by their `d_max`. -/
def bfLoop (dq : ℕ → ℚ) (eps : ℚ) (k : ℕ) :
    ℕ → List (ℚ × NC) → List (ℚ × ℕ) → Option (List (ℚ × ℕ))
  | 0, _, _ => none
  | fuel + 1, cands, hits =>
    if cands.isEmpty then some hits
    else
      let sel := (splitCandidates k hits cands).1 ++
        (splitCandidates k hits cands).2.1
      let leaves := sel.filter fun dc => dc.2.isLeaf
      let parents := sel.filter fun dc => !dc.2.isLeaf
      let hits' := leaves.foldl (fun h dc =>
        if dc.2.isSingleton eps then
          dc.2.indices.foldl (fun h i => hitsPush k h (dc.1, i)) h
        else
          dc.2.indices.foldl (fun h i => hitsPush k h (dq i, i)) h) hits
      let cands' := parents.foldl (fun cl dc =>
        dc.2.children.foldl (fun cl ec =>
          insortBy candLe (dq ec.2.2.argCenter + ec.2.2.radius, ec.2.2) cl) cl) []
      bfLoop dq eps k fuel cands' hits'

/-- `knn_breadth_first::search` (`knn_breadth_first.rs` lines 11-50): seed
the candidate heap with the root keyed by `d_max(root)`, run the sieve until
no candidates remain, and return the hits as `(index, distance)` pairs. -/
def bfSearch (dq : ℕ → ℚ) (eps : ℚ) (k : ℕ) (root : NC) (fuel : ℕ) :
    Option (List (ℕ × ℚ)) :=
  (bfLoop dq eps k fuel [(dq root.argCenter + root.radius, root)] []).map
    (List.map fun p => (p.2, p.1))

/-! ## Claim C10: singleton clusters in the breadth-first search -/

/-- C10 (counterexample).  A leaf with two members and radius
`2⁻²⁴ ∈ (0, f32::EPSILON)` is a singleton (`radius < EPSILON`), and the
breadth-first search reports both members at the queueing distance
`d(q, center) + radius = 1 + 2⁻²⁴`, not at the center-to-query distance
`1` the claim states. -/
theorem bf_singleton_counterexample :
    bfSearch (fun i => if i = 0 then 1 else 1 + 1/2^24) EPS32 2
        (NC.node 2 0 (1/2^24) [0, 1] []) 3 =
      some [(0, 1 + 1/2^24), (1, 1 + 1/2^24)] ∧
      (1 + 1/2^24 : ℚ) ≠ 1 := by
  constructor
  · decide
  · decide

/-- Ordered insertion is a permutation of consing. -/
theorem insortBy_perm (le : α → α → Bool) (x : α) (l : List α) :
    (insortBy le x l).Perm (x :: l) := by
  induction l with
  | nil => exact List.Perm.refl _
  | cons y ys ih =>
    unfold insortBy
    by_cases h : le x y = true
    · rw [if_pos h]
    · rw [if_neg h]
      exact (List.Perm.cons y ih).trans (List.Perm.swap x y ys)

/-- Below the cap, a push is just an ordered insertion. -/
theorem hitsPush_nocap (k : ℕ) (h : List (ℚ × ℕ)) (x : ℚ × ℕ)
    (hlen : h.length < k) : hitsPush k h x = insortBy hitsLex x h := by
  unfold hitsPush
  rw [if_pos]
  rw [insortBy_length]
  omega

/-- Folding pushes of a fixed distance over the members of a small-enough
cluster accumulates, up to permutation, exactly one pair per member. -/
theorem foldl_hitsPush_perm (k : ℕ) (d : ℚ) :
    ∀ (idxs : List ℕ) (h : List (ℚ × ℕ)), h.length + idxs.length ≤ k →
      (idxs.foldl (fun h i => hitsPush k h (d, i)) h).Perm
        (h ++ idxs.map fun i => (d, i)) := by
  intro idxs
  induction idxs with
  | nil =>
    intro h _
    simp
  | cons i rest ih =>
    intro h hlen
    simp only [List.foldl_cons, List.map_cons]
    have hlt : h.length < k := by
      simp only [List.length_cons] at hlen
      omega
    rw [hitsPush_nocap k h (d, i) hlt]
    have hlen' : (insortBy hitsLex (d, i) h).length + rest.length ≤ k := by
      rw [insortBy_length]
      simp only [List.length_cons] at hlen
      omega
    refine (ih _ hlen').trans ?_
    refine (List.Perm.append_right _ (insortBy_perm hitsLex (d, i) h)).trans ?_
    exact List.perm_middle.symm

/-- A single candidate with a non-negative key and radius is always
maybe-needed. -/
theorem splitCandidates_single (k : ℕ) (dc : ℚ × NC) (hd : 0 ≤ dc.1)
    (hr : 0 ≤ dc.2.radius) : splitCandidates k [] [dc] = ([], [dc], []) := by
  unfold splitCandidates
  simp only [List.map_cons, List.map_nil, List.length_nil, List.length_cons,
    List.getLast?_nil, Option.map_none', Option.getD_none]
  have hti : (thrIdx k 0 [dc.2.card]).getD (0 + 1 - 1) = 0 := by
    unfold thrIdx
    by_cases hki : k < 0 + dc.2.card
    · rw [if_pos hki]
      rfl
    · rw [if_neg hki]
      rfl
  rw [hti]
  simp only [List.get?_cons_zero, Option.map_some', Option.getD_some]
  have hthr : (if dc.1 < (0 : ℚ) then (0 : ℚ) else dc.1) = dc.1 :=
    if_neg (not_lt.mpr hd)
  rw [hthr]
  have hne : decide (dc.1 < dc.1) = false := decide_eq_false (lt_irrefl dc.1)
  have hdim : decide (dc.1 < if dc.1 ≤ 2 * dc.2.radius then (0 : ℚ)
      else dc.1 - 2 * dc.2.radius) = false := by
    by_cases hc : dc.1 ≤ 2 * dc.2.radius
    · rw [if_pos hc]
      exact decide_eq_false (not_lt.mpr hd)
    · rw [if_neg hc]
      exact decide_eq_false (not_lt.mpr (by linarith))
  simp only [List.filter_cons, List.filter_nil, hne, hdim, Bool.not_false,
    Bool.false_eq_true, if_false, if_true]

/-- C10 (amended).  A cluster is a singleton exactly when its cardinality is
`1` or its radius is below `EPSILON`; and the breadth-first search reports
every member of a singleton leaf with the queueing upper bound
`d(q, arg_center) + radius` — equal to the center-to-query distance only
when the radius is zero — instead of an individually computed distance:
searching a tree whose root is a singleton leaf returns exactly one pair
`(i, d(q, center) + radius)` per member `i`. -/
theorem bf_singleton_reports_dmax (dq : ℕ → ℚ) (eps : ℚ) (k : ℕ)
    (card ac : ℕ) (r : ℚ) (idxs : List ℕ)
    (hsing : (NC.node card ac r idxs []).isSingleton eps = true)
    (hd : 0 ≤ dq ac) (hr : 0 ≤ r) (hk : idxs.length ≤ k)
    (fuel : ℕ) (hfuel : 2 ≤ fuel) :
    (∀ c : NC, c.isSingleton eps = true ↔ (c.card = 1 ∨ c.radius < eps)) ∧
      ∃ out, bfSearch dq eps k (NC.node card ac r idxs []) fuel = some out ∧
        out.Perm (idxs.map fun i => (i, dq ac + r)) := by
  constructor
  · intro c
    simp [NC.isSingleton]
  · obtain ⟨f, rfl⟩ : ∃ f, fuel = f + 2 := by
      obtain ⟨g, rfl⟩ := Nat.exists_eq_add_of_le hfuel
      exact ⟨g, by omega⟩
    have hd0 : (0 : ℚ) ≤ dq (NC.node card ac r idxs []).argCenter +
        (NC.node card ac r idxs []).radius := by
      show (0 : ℚ) ≤ dq ac + r
      linarith
    unfold bfSearch bfLoop
    rw [if_neg (by simp)]
    rw [splitCandidates_single k
      (dq (NC.node card ac r idxs []).argCenter + (NC.node card ac r idxs []).radius,
        NC.node card ac r idxs []) hd0 hr]
    simp only [List.nil_append, List.filter_cons, List.filter_nil]
    rw [show (NC.node card ac r idxs []).isLeaf = true from rfl]
    simp only [if_true, Bool.not_true, Bool.false_eq_true, if_false,
      List.foldl_cons, List.foldl_nil, hsing]
    have hperm := foldl_hitsPush_perm k (dq (NC.node card ac r idxs []).argCenter +
      (NC.node card ac r idxs []).radius) ((NC.node card ac r idxs []).indices) []
      (by simpa using hk)
    simp only [List.nil_append] at hperm
    refine ⟨(List.foldl (fun h i => hitsPush k h
        (dq (NC.node card ac r idxs []).argCenter +
          (NC.node card ac r idxs []).radius, i))
        [] (NC.node card ac r idxs []).indices).map
          (fun p : ℚ × ℕ => (p.2, p.1)), ?_, ?_⟩
    · rfl
    · refine (hperm.map (fun p : ℚ × ℕ => (p.2, p.1))).trans ?_
      rw [List.map_map]
      exact List.Perm.refl _

/-- Witness for the amended C10: a two-member leaf of radius `2⁻²⁴ < EPSILON`
with `k = 3`; every member is reported at the queueing bound. -/
theorem bf_singleton_reports_dmax_witness :
    ((NC.node 2 0 (1/2^24) [0, 1] []).isSingleton EPS32 = true ∧
        (0 : ℚ) ≤ (fun i : ℕ => if i = 0 then (1 : ℚ) else 2) 0 ∧
        (0 : ℚ) ≤ (1/2^24 : ℚ) ∧ ([0, 1] : List ℕ).length ≤ 3 ∧ 2 ≤ 2) ∧
      ((∀ c : NC, c.isSingleton EPS32 = true ↔ (c.card = 1 ∨ c.radius < EPS32)) ∧
        ∃ out,
          bfSearch (fun i : ℕ => if i = 0 then (1 : ℚ) else 2) EPS32 3
              (NC.node 2 0 (1/2^24) [0, 1] []) 2 = some out ∧
            out.Perm (([0, 1] : List ℕ).map fun i =>
              (i, (fun i : ℕ => if i = 0 then (1 : ℚ) else 2)
                (NC.node 2 0 (1/2^24) [0, 1] []).argCenter +
                (NC.node 2 0 (1/2^24) [0, 1] []).radius))) :=
  ⟨⟨by decide, by decide, by decide, by decide, le_refl 2⟩,
    bf_singleton_reports_dmax (fun i : ℕ => if i = 0 then (1 : ℚ) else 2)
      EPS32 3 2 0 (1/2^24) [0, 1] (by decide) (by decide) (by decide)
      (by decide) 2 (le_refl 2)⟩

end Clam
